import Mathlib

/-!
Verification of the streaming price-ticker core (React Native demo app).

The definitions below are a shallow embedding of the TypeScript source:
JS numbers (float64 prices, epoch-millis timestamps) are modelled as `ℚ`
and `ℤ`, SQLite tables as lists of row records, and the WebSocket session
lifecycle as an explicit state machine stepped by transport events.
-/

namespace RnDemo

/-- Capacity of the in-memory tick buffer (`MAX_ITEMS` in the source). -/
def MAX_ITEMS : Nat := 20

/-- Cap on persisted history rows per symbol (`DB_MAX_ITEMS` in the source). -/
def DB_MAX_ITEMS : Nat := 60

/-- Cap on stored alert rules per symbol (`ALERT_MAX_ITEMS` in the source). -/
def ALERT_MAX_ITEMS : Nat := 20

/-- One buffered trade (`PriceUpdate` in the source). `key` is the string
identity key built by `handleMessage`. -/
structure PriceUpdate where
  key : String
  symbol : String
  price : ℚ
  timestamp : ℤ
deriving DecidableEq

/-- The template-literal key built in `handleMessage`:
the JS string interpolation of symbol, timestamp and price with dashes. -/
def mkKey (symbol : String) (timestamp : ℤ) (price : ℚ) : String :=
  symbol ++ "-" ++ toString timestamp ++ "-" ++ toString price

/-- A raw trade element of an inbound payload, after JS coercion:
`s` is `none` when `typeof trade.s` is not a string (the code sets it to
null), and `p`/`t` are `none` when numeric coercion produced NaN. -/
structure RawTrade where
  s : Option String
  p : Option ℚ
  t : Option ℤ

/-- The validation performed per trade inside `handleMessage`:
reject when the symbol is null/empty (JS falsy), when price or timestamp
coerced to NaN, or when the symbol differs from the session's bound
symbol. On success, build the `PriceUpdate` with its string key. -/
def decodeTrade (symbolForSession : String) (tr : RawTrade) : Option PriceUpdate :=
  match tr.s, tr.p, tr.t with
  | some symbol, some price, some timestamp =>
      if symbol = "" then none
      else if symbol ≠ symbolForSession then none
      else some ⟨mkKey symbol timestamp price, symbol, price, timestamp⟩
  | _, _, _ => none

/-- The `setUpdates` functional update in `handleMessage`: prepend the new
update, drop any buffered element with the same key, truncate to
`MAX_ITEMS`. -/
def acceptUpdate (update : PriceUpdate) (prev : List PriceUpdate) : List PriceUpdate :=
  (update :: prev.filter (fun item => item.key ≠ update.key)).take MAX_ITEMS

/-- Handling of one raw trade: decode/validate, then accept into the
buffer; invalid or foreign-symbol trades leave the buffer unchanged. -/
def handleTrade (symbolForSession : String) (prev : List PriceUpdate) (tr : RawTrade) :
    List PriceUpdate :=
  match decodeTrade symbolForSession tr with
  | none => prev
  | some u => acceptUpdate u prev

/-- The buffer contents after a session (bound to `symbolForSession`,
starting from the empty buffer installed on symbol switch) has processed a
sequence of raw trades in arrival order. -/
def processTrades (symbolForSession : String) (trades : List RawTrade) : List PriceUpdate :=
  trades.foldl (handleTrade symbolForSession) []

/-- Two buffered elements share the identity key of the spec:
equal (symbol, timestamp, price). -/
def sameIdentity (a b : PriceUpdate) : Prop :=
  a.symbol = b.symbol ∧ a.timestamp = b.timestamp ∧ a.price = b.price

/-- The TickBuffer invariant of the spec: every element carries the bound
symbol, the length is at most `MAX_ITEMS`, and no two elements share the
identity key. -/
def buffInv (symbolForSession : String) (l : List PriceUpdate) : Prop :=
  (∀ u ∈ l, u.symbol = symbolForSession) ∧
  l.length ≤ MAX_ITEMS ∧
  List.Pairwise (fun a b => ¬ sameIdentity a b) l

/-- Auxiliary invariant: every buffered element's key is the canonical key
of its identity triple (true of all elements created by `handleMessage`). -/
def wfKeys (l : List PriceUpdate) : Prop :=
  ∀ u ∈ l, u.key = mkKey u.symbol u.timestamp u.price

/-- A price sample as consumed by the pure analytics helpers
(`PriceSample` in `src/utils/market.ts`; the optional symbol is unused by
the computations). -/
structure PriceSample where
  symbol : Option String := none
  price : ℚ
  timestamp : ℤ
deriving DecidableEq

/-- Result record of `computeMetrics`. -/
structure Metrics where
  change : ℚ
  percentage : ℚ
  basis : Option ℚ
  latest : Option ℚ
deriving DecidableEq

/-- Function `computeMetrics` from `src/utils/market.ts` (duplicated in the app
modules): header analytics over the newest-first buffer. -/
def computeMetrics (entries : List PriceSample) : Metrics :=
  if h : entries = [] then ⟨0, 0, none, none⟩
  else
    let latest := (entries.head h).price
    let oldest := (entries.getLast h).price
    let change := latest - oldest
    let percentage := if oldest ≠ 0 then change / oldest * 100 else 0
    ⟨change, percentage, some oldest, some latest⟩

/-- One sparkline point: `key` is the sample's timestamp. -/
structure SparkPoint where
  key : ℤ
  price : ℚ
  normalized : ℚ
deriving DecidableEq

/-- Result record of `computeSparklinePoints`. -/
structure Sparkline where
  points : List SparkPoint
  min : Option ℚ
  max : Option ℚ
deriving DecidableEq

/-- Models `Math.max(...prices)` over a nonempty price list (the empty case is
unreachable under the length guard of `computeSparklinePoints`). -/
def jsMaxNum : List ℚ → ℚ
  | [] => 0
  | p :: ps => ps.foldl max p

/-- Models `Math.min(...prices)` over a nonempty price list. -/
def jsMinNum : List ℚ → ℚ
  | [] => 0
  | p :: ps => ps.foldl min p

/-- Function `computeSparklinePoints` from `src/utils/market.ts`: fewer than two
entries yield the empty payload; otherwise the newest-first buffer is
reversed into chronological order, min/max are taken over the prices,
the range `max - min` is replaced by 1 when it is 0 (JS `|| 1`), and each
price is normalized against the range. -/
def computeSparklinePoints (entries : List PriceSample) : Sparkline :=
  if entries.length < 2 then ⟨[], none, none⟩
  else
    let chronological := entries.reverse
    let prices := chronological.map (fun item => item.price)
    let mx := jsMaxNum prices
    let mn := jsMinNum prices
    let range := if mx - mn = 0 then 1 else mx - mn
    ⟨chronological.map (fun item =>
        ⟨item.timestamp, item.price, (item.price - mn) / range⟩),
     some mn, some mx⟩

/-- Alert direction (`'above' | 'below'` in the source; the code maps any
stored direction other than the literal string below to above). -/
inductive Direction where
  | above
  | below
deriving DecidableEq

/-- One row of the `price_alerts` table. `price` is the coerced threshold:
`none` models a value whose numeric coercion is NaN (the evaluator checks
`Number.isNaN` and skips such rows); `triggered` mirrors the 0/1 integer
column as a Bool. -/
structure AlertRow where
  id : Nat
  symbol : String
  direction : Direction
  price : Option ℚ
  triggered : Bool
deriving DecidableEq

/-- The per-row trigger decision inside `checkAlertsForUpdate`: a NaN
threshold never fires; otherwise fires iff
(above and tick price >= threshold) or (below and tick price <= threshold),
both comparisons inclusive. -/
def alertMatches (tickPrice : ℚ) (r : AlertRow) : Bool :=
  match r.price with
  | none => false
  | some v =>
      (r.direction == .above && decide (v ≤ tickPrice)) ||
      (r.direction == .below && decide (tickPrice ≤ v))

/-- The SELECT in `checkAlertsForUpdate`:
rows of `price_alerts` with the tick's symbol and `triggered = 0`. -/
def unfiredFor (u : PriceUpdate) (db : List AlertRow) : List AlertRow :=
  db.filter (fun r => r.symbol == u.symbol && !r.triggered)

/-- The rows the evaluator decides to fire for one tick: the un-fired rows
of the tick's symbol whose threshold condition holds. -/
def firedRows (u : PriceUpdate) (db : List AlertRow) : List AlertRow :=
  (unfiredFor u db).filter (fun r => alertMatches u.price r)

/-- The UPDATE in `checkAlertsForUpdate`:
`SET triggered = 1 WHERE id IN (...)`. -/
def markFired (db : List AlertRow) (ids : List Nat) : List AlertRow :=
  db.map (fun r => if r.id ∈ ids then { r with triggered := true } else r)

/-- Effect of one `checkAlertsForUpdate` call on the `price_alerts`
table: when no row fires the table is untouched, otherwise the fired ids
are marked triggered. -/
def checkAlertsDb (u : PriceUpdate) (db : List AlertRow) : List AlertRow :=
  if firedRows u db = [] then db else markFired db ((firedRows u db).map (fun r => r.id))

/-- The alert table after evaluating a sequence of accepted ticks in
order. -/
def runAlerts (updates : List PriceUpdate) (db : List AlertRow) : List AlertRow :=
  updates.foldl (fun d u => checkAlertsDb u d) db

/-- One row of the `price_updates` history table. -/
structure HistRec where
  id : Nat
  symbol : String
  price : ℚ
  timestamp : ℤ
deriving DecidableEq

/-- A fresh AUTOINCREMENT id: strictly larger than every id in use. -/
def nextId (ids : List Nat) : Nat := ids.foldr max 0 + 1

/-- SQL `ORDER BY timestamp DESC` as a Bool order on history rows. -/
def histLe (a b : HistRec) : Bool := decide (b.timestamp ≤ a.timestamp)

/-- The INSERT of `persistUpdate`: append a new row with a fresh id. -/
def insertHistory (db : List HistRec) (s : String) (p : ℚ) (t : ℤ) : List HistRec :=
  db ++ [⟨nextId (db.map (fun r => r.id)), s, p, t⟩]

/-- The inner SELECT of the prune step of `persistUpdate`: ids of the
`DB_MAX_ITEMS` rows of the symbol that are newest by timestamp
(`ORDER BY timestamp DESC LIMIT ?`; the stable merge sort mirrors SQLite's
tie handling by table order). -/
def keptHistoryIds (db : List HistRec) (s : String) : List Nat :=
  (((db.filter (fun r => r.symbol == s)).mergeSort histLe).take DB_MAX_ITEMS).map
    (fun r => r.id)

/-- The DELETE of the prune step of `persistUpdate`: remove the symbol's
rows whose id is not among the kept newest ids. -/
def pruneHistory (db : List HistRec) (s : String) : List HistRec :=
  db.filter (fun r => !(r.symbol == s) || decide (r.id ∈ keptHistoryIds db s))

/-- Function `persistUpdate`: insert the accepted tick into `price_updates`, then
prune the symbol's rows beyond the cap. -/
def persistUpdateDb (db : List HistRec) (u : PriceUpdate) : List HistRec :=
  pruneHistory (insertHistory db u.symbol u.price u.timestamp) u.symbol

/-- SQL `ORDER BY triggered ASC, id DESC` (the prune order of
`handleSaveAlert`): un-triggered rows sort before triggered ones, and
within the same triggered status larger (newer) ids sort first. -/
def alertKeepLe (a b : AlertRow) : Bool :=
  (!a.triggered && b.triggered) || ((a.triggered == b.triggered) && decide (b.id ≤ a.id))

/-- The INSERT of `handleSaveAlert`: a new un-triggered rule with a fresh
id. -/
def insertAlert (db : List AlertRow) (s : String) (dir : Direction) (p : ℚ) :
    List AlertRow :=
  db ++ [⟨nextId (db.map (fun r => r.id)), s, dir, some p, false⟩]

/-- The inner SELECT of the prune step of `handleSaveAlert`: ids of the
`ALERT_MAX_ITEMS` rows of the symbol kept by
`ORDER BY triggered ASC, id DESC LIMIT ?`. -/
def keptAlertIds (db : List AlertRow) (s : String) : List Nat :=
  (((db.filter (fun r => r.symbol == s)).mergeSort alertKeepLe).take ALERT_MAX_ITEMS).map
    (fun r => r.id)

/-- The DELETE of the prune step of `handleSaveAlert`. -/
def pruneAlerts (db : List AlertRow) (s : String) : List AlertRow :=
  db.filter (fun r => !(r.symbol == s) || decide (r.id ∈ keptAlertIds db s))

/-- Function `handleSaveAlert` on the `price_alerts` table: reject a NaN or
non-positive threshold, otherwise insert the rule and prune the symbol's
rows to the cap (`price` is the coerced input; `none` models NaN). -/
def handleSaveAlert (db : List AlertRow) (s : String) (dir : Direction)
    (p : Option ℚ) : List AlertRow :=
  match p with
  | none => db
  | some v => if v ≤ 0 then db else pruneAlerts (insertAlert db s dir v) s

/-- SQL ASC comparison on the (possibly NaN-coerced) price column used by
`loadAlerts` (`none`, like SQL NULL, sorts first). -/
def optPriceLe (a b : Option ℚ) : Bool :=
  match a, b with
  | none, _ => true
  | some _, none => false
  | some x, some y => decide (x ≤ y)

/-- SQL `ORDER BY triggered ASC, price ASC` of `loadAlerts`. -/
def alertLoadLe (a b : AlertRow) : Bool :=
  (!a.triggered && b.triggered) || ((a.triggered == b.triggered) && optPriceLe a.price b.price)

/-- Function `loadAlerts`: the rows of the symbol, ordered by
`triggered ASC, price ASC`, limited to `ALERT_MAX_ITEMS` — the list the
code installs as the session-visible alert state via `setAlerts`. -/
def loadAlertsRows (db : List AlertRow) (s : String) : List AlertRow :=
  ((db.filter (fun r => r.symbol == s)).mergeSort alertLoadLe).take ALERT_MAX_ITEMS

/-- The shared state a late async completion can touch: the active
symbol, the in-memory tick buffer (`updates`), the session-visible alert
list (`alerts`), and the two SQLite tables. -/
structure AppState where
  activeSymbol : String
  updates : List PriceUpdate
  alerts : List AlertRow
  dbAlerts : List AlertRow
  dbHistory : List HistRec
deriving DecidableEq

/-- Completion of a `persistUpdate` call: only the history table changes. -/
def persistComplete (u : PriceUpdate) (st : AppState) : AppState :=
  { st with dbHistory := persistUpdateDb st.dbHistory u }

/-- Completion of a `checkAlertsForUpdate` call: if any rule fired, mark
the fired ids in the table and then — unconditionally on the update's own
symbol — reload the visible alert list via `loadAlerts(update.symbol)`. -/
def checkAlertsComplete (u : PriceUpdate) (st : AppState) : AppState :=
  if firedRows u st.dbAlerts = [] then st
  else
    let db' := markFired st.dbAlerts ((firedRows u st.dbAlerts).map (fun r => r.id))
    { st with dbAlerts := db', alerts := loadAlertsRows db' u.symbol }

/-- Completion of `persistAndCheckUpdate`: persistence, then alert
evaluation, for one accepted tick. -/
def persistAndCheckComplete (u : PriceUpdate) (st : AppState) : AppState :=
  checkAlertsComplete u (persistComplete u st)

/-- Connection status values of the session (`connectionStatus` state). -/
inductive ConnStatus where
  | connecting
  | open
  | closed
  | error
deriving DecidableEq

/-- Transport/timer events a running session can receive. -/
inductive SessEv where
  | openEv
  | errorEv
  | closeEv
  | timerFire
  | teardown
deriving DecidableEq

/-- Observable state of one WebSocket session effect: the `manualClose`
closure flag, whether `reconnectTimerRef.current` is set, the number of
live pending reconnect timers, whether a socket object exists
(`wsRef.current`), the number of `connect()` invocations, and the
user-visible status and error message. -/
structure SessState where
  manual : Bool
  refSet : Bool
  pending : Nat
  wsOpen : Bool
  connects : Nat
  status : ConnStatus
  errorMsg : Option String
deriving DecidableEq

/-- The persistent configuration error surfaced when no token is set. -/
def configErrorMsg : String := "Set EXPO_PUBLIC_FINNHUB_TOKEN to stream live data."

/-- The transient message surfaced on a transport error. -/
def transportErrorMsg : String := "Live feed error, attempting to reconnect..."

/-- Function `connect()`: enter connecting, clear the error message, create a
socket, count the attempt. -/
def connectFn (st : SessState) : SessState :=
  { st with status := .connecting, errorMsg := none, wsOpen := true,
            connects := st.connects + 1 }

/-- Function `scheduleReconnect()`: a no-op when the close was manual or a timer
is already pending, otherwise start one 3-second timer and remember it in
the ref. -/
def scheduleReconnectFn (st : SessState) : SessState :=
  if st.manual || st.refSet then st
  else { st with refSet := true, pending := st.pending + 1 }

/-- One session event. Socket events (`onopen`/`onerror`/`onclose`) can
only arrive while a socket exists; a timer can only fire while one is
pending; teardown sets the manual flag, cancels the pending timer and
closes/clears the socket. -/
def stepSession (e : SessEv) (st : SessState) : SessState :=
  match e with
  | .openEv => if st.wsOpen then { st with status := .open } else st
  | .errorEv =>
      if st.wsOpen then { st with status := .error, errorMsg := some transportErrorMsg }
      else st
  | .closeEv =>
      if !st.wsOpen then st
      else if st.manual then st
      else scheduleReconnectFn { st with status := .closed }
  | .timerFire =>
      if st.pending = 0 then st
      else connectFn { st with refSet := false, pending := st.pending - 1 }
  | .teardown =>
      { st with manual := true, refSet := false, pending := 0, wsOpen := false }

/-- Component state when the session effect starts: no socket, no timer,
status connecting, no message. -/
def initSessState : SessState :=
  ⟨false, false, 0, false, 0, .connecting, none⟩

/-- The body of the WebSocket lifecycle effect: without a token, cancel
any pending timer, close and clear any socket, surface the persistent
configuration error, and return without connecting; with a token, call
`connect()`. -/
def startEffect (hasToken : Bool) (st : SessState) : SessState :=
  if hasToken then connectFn st
  else { st with refSet := false, pending := 0, wsOpen := false,
                 status := .error, errorMsg := some configErrorMsg }

/-- A whole session run: the effect body, then a sequence of events. -/
def runSession (hasToken : Bool) (evs : List SessEv) : SessState :=
  evs.foldl (fun s e => stepSession e s) (startEffect hasToken initSessState)

/-! ## Helper lemmas -/

/-- Fold a step-preserved invariant over a list of inputs. -/
theorem foldl_inv {σ ε : Type} (P : σ → Prop) (f : σ → ε → σ)
    (hstep : ∀ s e, P s → P (f s e)) :
    ∀ (l : List ε) (s : σ), P s → P (l.foldl f s) := by
  intro l
  induction l with
  | nil => intro s h; exact h
  | cons e l ih => intro s h; exact ih (f s e) (hstep s e h)

theorem foldl_max_const (c : ℚ) :
    ∀ l : List ℚ, (∀ x ∈ l, x = c) → l.foldl max c = c := by
  intro l
  induction l with
  | nil => intro _; rfl
  | cons x xs ih =>
      intro hall
      have hx : x = c := hall x (List.mem_cons_self x xs)
      simp only [List.foldl_cons, hx, max_self]
      exact ih fun y hy => hall y (List.mem_cons_of_mem _ hy)

theorem foldl_min_const (c : ℚ) :
    ∀ l : List ℚ, (∀ x ∈ l, x = c) → l.foldl min c = c := by
  intro l
  induction l with
  | nil => intro _; rfl
  | cons x xs ih =>
      intro hall
      have hx : x = c := hall x (List.mem_cons_self x xs)
      simp only [List.foldl_cons, hx, min_self]
      exact ih fun y hy => hall y (List.mem_cons_of_mem _ hy)

theorem jsMaxNum_const (l : List ℚ) (c : ℚ) (hall : ∀ x ∈ l, x = c) (hne : l ≠ []) :
    jsMaxNum l = c := by
  cases l with
  | nil => exact absurd rfl hne
  | cons p ps =>
      have hp : p = c := hall p (List.mem_cons_self p ps)
      simp only [jsMaxNum, hp]
      exact foldl_max_const c ps fun y hy => hall y (List.mem_cons_of_mem _ hy)

theorem jsMinNum_const (l : List ℚ) (c : ℚ) (hall : ∀ x ∈ l, x = c) (hne : l ≠ []) :
    jsMinNum l = c := by
  cases l with
  | nil => exact absurd rfl hne
  | cons p ps =>
      have hp : p = c := hall p (List.mem_cons_self p ps)
      simp only [jsMinNum, hp]
      exact foldl_min_const c ps fun y hy => hall y (List.mem_cons_of_mem _ hy)

/-! ## C4: change metrics -/

/-- C4: `computeMetrics` on the empty sequence returns
`{change 0, percentage 0, basis null, latest null}`; on every non-empty
newest-first sequence it returns the price of element 0 as latest, the
price of the last element as basis, change = latest - basis, and
percentage = 0 when the basis is 0 and change / basis * 100 otherwise. -/
theorem computeMetrics_spec (entries : List PriceSample) (h : entries ≠ []) :
    computeMetrics [] = ⟨0, 0, none, none⟩ ∧
    (computeMetrics entries).latest = some (entries.head h).price ∧
    (computeMetrics entries).basis = some (entries.getLast h).price ∧
    (computeMetrics entries).change =
      (entries.head h).price - (entries.getLast h).price ∧
    (computeMetrics entries).percentage =
      (if (entries.getLast h).price = 0 then 0
       else ((entries.head h).price - (entries.getLast h).price) /
          (entries.getLast h).price * 100) := by
  refine ⟨rfl, ?_, ?_, ?_, ?_⟩
  · simp [computeMetrics, dif_neg h]
  · simp [computeMetrics, dif_neg h]
  · simp [computeMetrics, dif_neg h]
  · simp only [computeMetrics, dif_neg h]
    by_cases h0 : (entries.getLast h).price = 0 <;> simp [h0]

/-- Witness for C4 at the spec's own example
`[{price 110, t 2000}, {price 100, t 1000}]`. -/
theorem computeMetrics_spec_witness :
    (computeMetrics [⟨none, 110, 2000⟩, ⟨none, 100, 1000⟩]).latest = some 110 ∧
    (computeMetrics [⟨none, 110, 2000⟩, ⟨none, 100, 1000⟩]).basis = some 100 ∧
    (computeMetrics [⟨none, 110, 2000⟩, ⟨none, 100, 1000⟩]).change = 10 ∧
    (computeMetrics [⟨none, 110, 2000⟩, ⟨none, 100, 1000⟩]).percentage = 10 := by
  have h := computeMetrics_spec [⟨none, 110, 2000⟩, ⟨none, 100, 1000⟩] (by decide)
  refine ⟨h.2.1, h.2.2.1, ?_, ?_⟩
  · rw [h.2.2.2.1]; norm_num
  · rw [h.2.2.2.2]; norm_num

/-! ## C8: sparkline degenerate normalization -/

/-- C8: on an input of at least two samples whose prices are all equal,
every sparkline point normalizes to exactly 0 (the zero range is floored
to 1, and each numerator is price - min = 0). -/
theorem sparkline_constant_zero (entries : List PriceSample) (c : ℚ)
    (hlen : 2 ≤ entries.length) (hall : ∀ e ∈ entries, e.price = c) :
    ∀ pt ∈ (computeSparklinePoints entries).points, pt.normalized = 0 := by
  have hnlt : ¬ entries.length < 2 := Nat.not_lt.mpr hlen
  intro pt hpt
  simp only [computeSparklinePoints, if_neg hnlt] at hpt
  obtain ⟨item, hitem, rfl⟩ := List.mem_map.mp hpt
  have hpc : item.price = c := hall item (List.mem_reverse.mp hitem)
  have hallp : ∀ x ∈ entries.reverse.map (fun i => i.price), x = c := by
    intro x hx
    obtain ⟨i, hi, rfl⟩ := List.mem_map.mp hx
    exact hall i (List.mem_reverse.mp hi)
  have hne : entries.reverse.map (fun i => i.price) ≠ [] := by
    intro hnil
    have hlen0 : (entries.reverse.map (fun i => i.price)).length = 0 := by
      rw [hnil]; rfl
    rw [List.length_map, List.length_reverse] at hlen0
    omega
  have hmx : jsMaxNum (entries.reverse.map (fun i => i.price)) = c :=
    jsMaxNum_const _ c hallp hne
  have hmn : jsMinNum (entries.reverse.map (fun i => i.price)) = c :=
    jsMinNum_const _ c hallp hne
  show (item.price - jsMinNum (entries.reverse.map fun i => i.price)) /
      (if jsMaxNum (entries.reverse.map fun i => i.price) -
          jsMinNum (entries.reverse.map fun i => i.price) = 0 then 1
       else jsMaxNum (entries.reverse.map fun i => i.price) -
          jsMinNum (entries.reverse.map fun i => i.price)) = 0
  rw [hmx, hmn, hpc]
  simp

/-- Witness for C8 on two equal-price samples: the computed point list is
`[⟨1, 5, 0⟩, ⟨2, 5, 0⟩]` and the theorem applies to its head. -/
theorem sparkline_constant_zero_witness :
    (⟨1, 5, 0⟩ : SparkPoint) ∈
      (computeSparklinePoints [⟨none, 5, 2⟩, ⟨none, 5, 1⟩]).points ∧
    (⟨1, 5, 0⟩ : SparkPoint).normalized = 0 := by
  have hmem : (⟨1, 5, 0⟩ : SparkPoint) ∈
      (computeSparklinePoints [⟨none, 5, 2⟩, ⟨none, 5, 1⟩]).points := by
    simp [computeSparklinePoints, jsMaxNum, jsMinNum]
  refine ⟨hmem, ?_⟩
  exact sparkline_constant_zero [⟨none, 5, 2⟩, ⟨none, 5, 1⟩] 5 (by simp)
    (by intro e he; fin_cases he <;> rfl) ⟨1, 5, 0⟩ hmem

/-! ## C9: missing token -/

/-- The state predicate maintained forever by a token-less session. -/
def noTokenInv (st : SessState) : Prop :=
  st.wsOpen = false ∧ st.pending = 0 ∧ st.refSet = false ∧ st.connects = 0 ∧
  st.status = .error ∧ st.errorMsg = some configErrorMsg

theorem noTokenInv_step (e : SessEv) (st : SessState) (h : noTokenInv st) :
    noTokenInv (stepSession e st) := by
  obtain ⟨h1, h2, h3, h4, h5, h6⟩ := h
  cases e <;>
    simp [stepSession, noTokenInv, scheduleReconnectFn, connectFn, h1, h2, h3, h4, h5, h6]

/-- C9: with no access token configured, the session effect enters the
configuration-error state and stays there under every event sequence: the
status is the error state with the persistent configuration message, no
connection attempt is ever made (`connects = 0`), and no reconnect timer
is ever scheduled (`pending = 0`). -/
theorem no_token_failed_state (evs : List SessEv) :
    (runSession false evs).status = .error ∧
    (runSession false evs).errorMsg = some configErrorMsg ∧
    (runSession false evs).connects = 0 ∧
    (runSession false evs).pending = 0 ∧
    (runSession false evs).wsOpen = false := by
  have base : noTokenInv (startEffect false initSessState) := by
    simp [startEffect, initSessState, noTokenInv]
  have main : noTokenInv (runSession false evs) :=
    foldl_inv noTokenInv (fun s e => stepSession e s)
      (fun s e hs => noTokenInv_step e s hs) evs _ base
  exact ⟨main.2.2.2.2.1, main.2.2.2.2.2, main.2.2.2.1, main.2.1, main.1⟩

/-! ## C6: single pending reconnect timer -/

/-- Invariant of a token-bearing session: the pending-timer count is 1
exactly when the timer ref is set, and while the session has not been
manually torn down a socket object exists. -/
def sessInv (st : SessState) : Prop :=
  st.pending = (if st.refSet then 1 else 0) ∧ (st.manual = false → st.wsOpen = true)

theorem manual_true_of_not_ws (st : SessState)
    (h2 : st.manual = false → st.wsOpen = true) (hw : ¬ st.wsOpen = true) :
    st.manual = true := by
  cases hmm : st.manual
  · exact absurd (h2 hmm) hw
  · rfl

theorem sessInv_step (e : SessEv) (st : SessState) (h : sessInv st) :
    sessInv (stepSession e st) := by
  obtain ⟨h1, h2⟩ := h
  cases e with
  | openEv =>
      by_cases hw : st.wsOpen = true
      · simp [stepSession, sessInv, hw, h1, h2]
      · simp [stepSession, sessInv, hw, h1, manual_true_of_not_ws st h2 hw]
  | errorEv =>
      by_cases hw : st.wsOpen = true
      · simp [stepSession, sessInv, hw, h1, h2]
      · simp [stepSession, sessInv, hw, h1, manual_true_of_not_ws st h2 hw]
  | closeEv =>
      by_cases hw : st.wsOpen = true
      · by_cases hm : st.manual
        · simp [stepSession, sessInv, hw, hm, h1, h2]
        · by_cases hr : st.refSet <;>
            · simp [hr] at h1
              simp [stepSession, scheduleReconnectFn, sessInv, hw, hm, hr, h1, h2]
      · simp [stepSession, sessInv, hw, h1, manual_true_of_not_ws st h2 hw]
  | timerFire =>
      by_cases hp : st.pending = 0
      · have hstep : stepSession .timerFire st = st := by simp [stepSession, hp]
        rw [hstep]; exact ⟨h1, h2⟩
      · have hr : st.refSet = true := by
          by_contra hr
          simp [eq_false_of_ne_true hr] at h1
          exact hp h1
        have hp1 : st.pending = 1 := by simpa [hr] using h1
        simp [stepSession, connectFn, sessInv, hp, hr, hp1]
  | teardown => simp [stepSession, sessInv]

theorem sessInv_run (evs : List SessEv) : sessInv (runSession true evs) := by
  have base : sessInv (startEffect true initSessState) := by
    simp [startEffect, initSessState, connectFn, sessInv]
  exact foldl_inv sessInv (fun s e => stepSession e s)
    (fun s e hs => sessInv_step e s hs) evs _ base

/-- A non-manual close event on a live session leaves exactly one pending
reconnect timer, whether or not one was already pending, and preserves
the session invariant and the manual flag. -/
theorem closeEv_pending (st : SessState) (hI : sessInv st) (hm : st.manual = false) :
    (stepSession .closeEv st).pending = 1 ∧
    (stepSession .closeEv st).manual = false ∧
    sessInv (stepSession .closeEv st) := by
  obtain ⟨h1, h2⟩ := hI
  have hw : st.wsOpen = true := h2 hm
  refine ⟨?_, ?_, sessInv_step .closeEv st ⟨h1, h2⟩⟩
  · by_cases hr : st.refSet <;>
      simp [stepSession, scheduleReconnectFn, hw, hm, hr] <;> simp [hr] at h1 <;> omega
  · by_cases hr : st.refSet <;> simp [stepSession, scheduleReconnectFn, hw, hm, hr]

/-- C6: in a session with a token, at most one reconnect timer is ever
pending; after a non-manual transport close exactly one reconnect timer
is pending, and a second close arriving while it is pending schedules no
additional timer (still exactly one). -/
theorem reconnect_single_timer (evs : List SessEv)
    (hm : (runSession true evs).manual = false) :
    (runSession true evs).pending ≤ 1 ∧
    (stepSession .closeEv (runSession true evs)).pending = 1 ∧
    (stepSession .closeEv (stepSession .closeEv (runSession true evs))).pending = 1 := by
  have hI := sessInv_run evs
  have hle : (runSession true evs).pending ≤ 1 := by
    have h1 := hI.1
    by_cases hr : (runSession true evs).refSet <;> simp [hr] at h1 <;> omega
  obtain ⟨hp1, hm1, hI1⟩ := closeEv_pending (runSession true evs) hI hm
  obtain ⟨hp2, _, _⟩ := closeEv_pending (stepSession .closeEv (runSession true evs)) hI1 hm1
  exact ⟨hle, hp1, hp2⟩

/-- Witness for C6: the empty event sequence after session start. -/
theorem reconnect_single_timer_witness :
    (runSession true []).pending ≤ 1 ∧
    (stepSession .closeEv (runSession true [])).pending = 1 ∧
    (stepSession .closeEv (stepSession .closeEv (runSession true []))).pending = 1 :=
  reconnect_single_timer [] (by decide)

/-! ## C1: tick buffer invariant -/

/-- The combined induction invariant: the spec's buffer invariant plus
well-formedness of every stored key. -/
def tickInv (symbolForSession : String) (l : List PriceUpdate) : Prop :=
  buffInv symbolForSession l ∧ wfKeys l

theorem decodeTrade_eq_some (symbolForSession : String) (tr : RawTrade)
    (u : PriceUpdate) (h : decodeTrade symbolForSession tr = some u) :
    u.symbol = symbolForSession ∧ u.key = mkKey u.symbol u.timestamp u.price := by
  rcases tr with ⟨s, p, t⟩
  cases s with
  | none => simp [decodeTrade] at h
  | some sym =>
    cases p with
    | none => simp [decodeTrade] at h
    | some price =>
      cases t with
      | none => simp [decodeTrade] at h
      | some ts =>
        by_cases h1 : sym = ""
        · simp [decodeTrade, h1] at h
        · by_cases h2 : sym = symbolForSession
          · subst h2
            have hd : decodeTrade sym ⟨some sym, some price, some ts⟩ =
                some ⟨mkKey sym ts price, sym, price, ts⟩ := by
              simp [decodeTrade, h1]
            rw [hd] at h
            have heq := Option.some_injective _ h
            rw [← heq]
            exact ⟨rfl, rfl⟩
          · simp [decodeTrade, h1, h2] at h

theorem acceptUpdate_inv (symbolForSession : String) (u : PriceUpdate)
    (l : List PriceUpdate)
    (husym : u.symbol = symbolForSession)
    (hukey : u.key = mkKey u.symbol u.timestamp u.price)
    (h : tickInv symbolForSession l) :
    tickInv symbolForSession (acceptUpdate u l) := by
  obtain ⟨⟨hsym, _, hpair⟩, hkeys⟩ := h
  have hfilter_sub : l.filter (fun item => item.key ≠ u.key) ⊆ l :=
    (List.filter_sublist l).subset
  have hcons_pair :
      List.Pairwise (fun a b => ¬ sameIdentity a b)
        (u :: l.filter (fun item => item.key ≠ u.key)) := by
    refine List.pairwise_cons.mpr ⟨?_, ?_⟩
    · intro b hb hid
      have hbkey : b.key = mkKey b.symbol b.timestamp b.price :=
        hkeys b (hfilter_sub hb)
      have hbne : b.key ≠ u.key := by
        have := List.of_mem_filter hb
        simpa using this
      obtain ⟨e1, e2, e3⟩ := hid
      exact hbne (by rw [hbkey, hukey, e1, e2, e3])
    · exact hpair.sublist (List.filter_sublist l)
  refine ⟨⟨?_, ?_, ?_⟩, ?_⟩
  · intro x hx
    have hx' := (List.take_sublist _ _).subset hx
    rcases List.mem_cons.mp hx' with hxu | hxl
    · rw [hxu]; exact husym
    · exact hsym x (hfilter_sub hxl)
  · unfold acceptUpdate
    rw [List.length_take]
    exact min_le_left _ _
  · exact hcons_pair.sublist (List.take_sublist _ _)
  · intro x hx
    have hx' := (List.take_sublist _ _).subset hx
    rcases List.mem_cons.mp hx' with hxu | hxl
    · rw [hxu]; exact hukey
    · exact hkeys x (hfilter_sub hxl)

theorem handleTrade_inv (symbolForSession : String) (l : List PriceUpdate)
    (tr : RawTrade) (h : tickInv symbolForSession l) :
    tickInv symbolForSession (handleTrade symbolForSession l tr) := by
  unfold handleTrade
  cases hdec : decodeTrade symbolForSession tr with
  | none => exact h
  | some u =>
      obtain ⟨husym, hukey⟩ := decodeTrade_eq_some symbolForSession tr u hdec
      exact acceptUpdate_inv symbolForSession u l husym hukey h

/-- C1: starting from the empty buffer installed when the session binds
its symbol, every sequence of processed trades leaves the buffer
satisfying the invariant: all elements carry the bound symbol, the length
is at most `MAX_ITEMS` = 20, and no two elements share the identity key
(symbol, timestamp, price). Since the trade sequence is universally
quantified, the invariant holds after every accept (each prefix of the
sequence is itself a sequence). -/
theorem tickBuffer_invariant (symbolForSession : String) (trades : List RawTrade) :
    buffInv symbolForSession (processTrades symbolForSession trades) := by
  have base : tickInv symbolForSession [] := by
    refine ⟨⟨?_, ?_, ?_⟩, ?_⟩ <;> simp [MAX_ITEMS, wfKeys]
  exact (foldl_inv (tickInv symbolForSession) (handleTrade symbolForSession)
    (fun l tr hl => handleTrade_inv symbolForSession l tr hl) trades [] base).1

/-! ## C2: fired flag is a monotone latch -/

/-- The only change the evaluator can make to a row: leave it alone or
set `triggered` to 1. -/
def flipOnly (a b : AlertRow) : Prop :=
  b = a ∨ b = { a with triggered := true }

theorem flipOnly_refl (db : List AlertRow) : List.Forall₂ flipOnly db db := by
  induction db with
  | nil => exact .nil
  | cons r rs ih => exact .cons (Or.inl rfl) ih

theorem flipOnly_trans {a b c : AlertRow} (hab : flipOnly a b) (hbc : flipOnly b c) :
    flipOnly a c := by
  rcases hab with rfl | rfl
  · exact hbc
  · rcases hbc with rfl | rfl
    · exact Or.inr rfl
    · exact Or.inr rfl

theorem forall₂_flipOnly_trans {l₁ l₂ l₃ : List AlertRow}
    (h12 : List.Forall₂ flipOnly l₁ l₂) (h23 : List.Forall₂ flipOnly l₂ l₃) :
    List.Forall₂ flipOnly l₁ l₃ := by
  induction h12 generalizing l₃ with
  | nil => cases h23; exact .nil
  | cons hab _ ih =>
      cases h23 with
      | cons hbc h' => exact .cons (flipOnly_trans hab hbc) (ih h')

theorem markFired_flipOnly (ids : List Nat) :
    ∀ db : List AlertRow, List.Forall₂ flipOnly db (markFired db ids) := by
  intro db
  induction db with
  | nil => exact .nil
  | cons r rs ih =>
      simp only [markFired, List.map_cons]
      refine .cons ?_ ih
      by_cases hid : r.id ∈ ids <;> simp [hid, flipOnly]

theorem checkAlertsDb_flipOnly (u : PriceUpdate) (db : List AlertRow) :
    List.Forall₂ flipOnly db (checkAlertsDb u db) := by
  unfold checkAlertsDb
  split
  · exact flipOnly_refl db
  · exact markFired_flipOnly _ db

theorem runAlerts_flipOnly (updates : List PriceUpdate) :
    ∀ db, List.Forall₂ flipOnly db (runAlerts updates db) := by
  induction updates with
  | nil => intro db; exact flipOnly_refl db
  | cons u us ih =>
      intro db
      exact forall₂_flipOnly_trans (checkAlertsDb_flipOnly u db) (ih (checkAlertsDb u db))

/-- C2: over any sequence of evaluated ticks, each alert row either stays
as it was or has `triggered` set to 1 — so once `triggered` is true it
never reverts to false (monotone latch) — and the evaluator only ever
reads rows with `triggered = 0`: every row it decides to fire was
un-triggered when read. -/
theorem alert_fired_latch (updates : List PriceUpdate) (db : List AlertRow) :
    List.Forall₂ (fun a b => (a.triggered = true → b.triggered = true) ∧
        (b = a ∨ b = { a with triggered := true })) db (runAlerts updates db) ∧
    ∀ u r, r ∈ firedRows u db → r.triggered = false := by
  constructor
  · refine (runAlerts_flipOnly updates db).imp ?_
    intro a b hab
    refine ⟨?_, hab⟩
    intro ht
    rcases hab with rfl | rfl
    · exact ht
    · rfl
  · intro u r hr
    have hr1 : r ∈ unfiredFor u db := List.mem_of_mem_filter hr
    have hr2 := List.of_mem_filter hr1
    simp only [Bool.and_eq_true, Bool.not_eq_true'] at hr2
    exact hr2.2

/-- Witness for C2: a single above-100 alert evaluated against a
price-150 tick: the fired row was un-triggered, and after the run its
stored row is latched. -/
theorem alert_fired_latch_witness :
    (⟨1, "AAPL", .above, some 100, false⟩ : AlertRow).triggered = false :=
  (alert_fired_latch [⟨"k", "AAPL", 150, 1000⟩] [⟨1, "AAPL", .above, some 100, false⟩]).2
    ⟨"k", "AAPL", 150, 1000⟩ ⟨1, "AAPL", .above, some 100, false⟩
    (by simp [firedRows, unfiredFor, alertMatches]; norm_num)

/-! ## C3: inclusive threshold fire condition -/

/-- C3: for an un-fired alert rule of the tick's symbol with a numeric
threshold, evaluation decides to fire it iff
(direction above and tick price >= threshold) or
(direction below and tick price <= threshold); both comparisons are
inclusive. -/
theorem alert_fire_iff (u : PriceUpdate) (db : List AlertRow) (r : AlertRow) (v : ℚ)
    (hmem : r ∈ db) (hsym : r.symbol = u.symbol) (hunf : r.triggered = false)
    (hprice : r.price = some v) :
    r ∈ firedRows u db ↔
      ((r.direction = .above ∧ v ≤ u.price) ∨ (r.direction = .below ∧ u.price ≤ v)) := by
  unfold firedRows unfiredFor
  rw [List.mem_filter, List.mem_filter]
  simp [hmem, hsym, hunf, alertMatches, hprice]

/-- Witness for C3: the above-100 rule fires on a price-150 tick. -/
theorem alert_fire_iff_witness :
    ((⟨1, "AAPL", .above, some 100, false⟩ : AlertRow) ∈
        firedRows ⟨"k", "AAPL", 150, 1000⟩ [⟨1, "AAPL", .above, some 100, false⟩]) ↔
      (((⟨1, "AAPL", .above, some 100, false⟩ : AlertRow).direction = .above ∧
          (100 : ℚ) ≤ (⟨"k", "AAPL", 150, 1000⟩ : PriceUpdate).price) ∨
       ((⟨1, "AAPL", .above, some 100, false⟩ : AlertRow).direction = .below ∧
          (⟨"k", "AAPL", 150, 1000⟩ : PriceUpdate).price ≤ (100 : ℚ))) :=
  alert_fire_iff ⟨"k", "AAPL", 150, 1000⟩ [⟨1, "AAPL", .above, some 100, false⟩]
    ⟨1, "AAPL", .above, some 100, false⟩ 100 (by simp) rfl rfl rfl

/-! ## Generic lemmas about the SQL insert-then-prune pattern

Both `persistUpdate` and `handleSaveAlert` prune with
`DELETE ... WHERE matchs AND id NOT IN (SELECT id ... ORDER BY le LIMIT cap)`;
the lemmas below are generic in the row type, the id projection and the
ORDER BY relation. -/

/-- The generic id list kept by the inner SELECT. -/
def sqlKeep {α : Type} (ident : α → Nat) (le : α → α → Bool) (cap : Nat)
    (matchs : α → Bool) (I : List α) : List Nat :=
  (((I.filter matchs).mergeSort le).take cap).map ident

/-- The generic DELETE: keep rows that do not match, or whose id the
inner SELECT kept. -/
def sqlPruneRows {α : Type} (ident : α → Nat) (le : α → α → Bool) (cap : Nat)
    (matchs : α → Bool) (I : List α) : List α :=
  I.filter fun r => !(matchs r) || decide (ident r ∈ sqlKeep ident le cap matchs I)

theorem le_foldr_max (x : Nat) : ∀ l : List Nat, x ∈ l → x ≤ l.foldr max 0 := by
  intro l
  induction l with
  | nil => intro h; cases h
  | cons y ys ih =>
      intro h
      rcases List.mem_cons.mp h with rfl | h'
      · exact le_max_left _ _
      · exact le_trans (ih h') (le_max_right _ _)

theorem nextId_not_mem (ids : List Nat) : nextId ids ∉ ids := by
  intro h
  have hle := le_foldr_max (nextId ids) ids h
  unfold nextId at hle
  omega

theorem take_drop_le {α : Type} {le : α → α → Bool}
    (htrans : ∀ a b c, le a b = true → le b c = true → le a c = true)
    (htotal : ∀ a b, (le a b || le b a) = true)
    (F : List α) (cap : Nat) :
    ∀ a ∈ (F.mergeSort le).take cap, ∀ b ∈ (F.mergeSort le).drop cap, le a b = true := by
  have hs := List.sorted_mergeSort htrans htotal F
  rw [← List.take_append_drop cap (F.mergeSort le)] at hs
  exact (List.pairwise_append.mp hs).2.2

theorem nodup_map_mergeSort {α : Type} (ident : α → Nat) (le : α → α → Bool)
    (F : List α) (hnd : (F.map ident).Nodup) :
    ((F.mergeSort le).map ident).Nodup :=
  (((List.mergeSort_perm F le).map ident).symm).nodup hnd

theorem sql_kept_perm {α : Type} [DecidableEq α] (ident : α → Nat) (le : α → α → Bool)
    (cap : Nat) (F : List α) (hnd : (F.map ident).Nodup) :
    (F.filter fun r => decide (ident r ∈ ((F.mergeSort le).take cap).map ident)).Perm
      ((F.mergeSort le).take cap) := by
  have hperm : (F.mergeSort le).Perm F := List.mergeSort_perm F le
  have hndS : ((F.mergeSort le).map ident).Nodup := nodup_map_mergeSort ident le F hnd
  set T := (F.mergeSort le).take cap with hT
  set D := (F.mergeSort le).drop cap with hD
  have hTD : T ++ D = F.mergeSort le := List.take_append_drop cap _
  have hndTD : (T.map ident ++ D.map ident).Nodup := by
    rw [← List.map_append, hTD]; exact hndS
  have hdisj : ∀ x ∈ D, ident x ∉ T.map ident := by
    intro x hx hmem
    exact (List.nodup_append.mp hndTD).2.2 hmem (List.mem_map_of_mem ident hx)
  have h1 : (F.filter fun r => decide (ident r ∈ T.map ident)).Perm
      ((F.mergeSort le).filter fun r => decide (ident r ∈ T.map ident)) :=
    hperm.symm.filter _
  have h2 : ((F.mergeSort le).filter fun r => decide (ident r ∈ T.map ident)) = T := by
    rw [← hTD, List.filter_append]
    have hTfull : (T.filter fun r => decide (ident r ∈ T.map ident)) = T := by
      apply List.filter_eq_self.mpr
      intro a ha
      simpa using List.mem_map_of_mem ident ha
    have hDnil : (D.filter fun r => decide (ident r ∈ T.map ident)) = [] := by
      apply List.filter_eq_nil_iff.mpr
      intro a ha
      simpa using hdisj a ha
    rw [hTfull, hDnil, List.append_nil]
  rw [h2] at h1
  exact h1

theorem sqlPruneRows_filter_perm {α : Type} [DecidableEq α] (ident : α → Nat)
    (le : α → α → Bool) (cap : Nat) (matchs : α → Bool) (I : List α)
    (hnd : ((I.filter matchs).map ident).Nodup) :
    ((sqlPruneRows ident le cap matchs I).filter matchs).Perm
      (((I.filter matchs).mergeSort le).take cap) := by
  have e1 : (sqlPruneRows ident le cap matchs I).filter matchs
      = (I.filter matchs).filter
          (fun r => decide (ident r ∈ sqlKeep ident le cap matchs I)) := by
    unfold sqlPruneRows
    rw [List.filter_filter, List.filter_filter]
    apply List.filter_congr
    intro a _
    cases h : matchs a <;> simp [h]
  rw [e1]
  exact sql_kept_perm ident le cap (I.filter matchs) hnd

theorem sqlPruneRows_dropped {α : Type} [DecidableEq α] (ident : α → Nat)
    (le : α → α → Bool)
    (htrans : ∀ a b c, le a b = true → le b c = true → le a c = true)
    (htotal : ∀ a b, (le a b || le b a) = true)
    (cap : Nat) (matchs : α → Bool) (I : List α)
    (hnd : ((I.filter matchs).map ident).Nodup) :
    ∀ k ∈ sqlPruneRows ident le cap matchs I, matchs k = true →
      ∀ d ∈ I, matchs d = true → d ∉ sqlPruneRows ident le cap matchs I →
        le k d = true := by
  intro k hk hkm d hd hdm hdnot
  have hkT : k ∈ ((I.filter matchs).mergeSort le).take cap :=
    (sqlPruneRows_filter_perm ident le cap matchs I hnd).mem_iff.mp
      (List.mem_filter.mpr ⟨hk, hkm⟩)
  have hdF : d ∈ I.filter matchs := List.mem_filter.mpr ⟨hd, hdm⟩
  have hdnK : ident d ∉ sqlKeep ident le cap matchs I := by
    intro hmem
    exact hdnot (List.mem_filter.mpr ⟨hd, by simp [hdm, hmem]⟩)
  have hdS : d ∈ (I.filter matchs).mergeSort le :=
    (List.mergeSort_perm _ le).mem_iff.mpr hdF
  have hdTD : d ∈ ((I.filter matchs).mergeSort le).take cap ++
      ((I.filter matchs).mergeSort le).drop cap := by
    rw [List.take_append_drop]; exact hdS
  rcases List.mem_append.mp hdTD with hdT | hdD
  · exact absurd (List.mem_map_of_mem ident hdT) hdnK
  · exact take_drop_le htrans htotal (I.filter matchs) cap k hkT d hdD

/-! ## C7: history cap pruning -/

theorem histLe_trans : ∀ a b c : HistRec,
    histLe a b = true → histLe b c = true → histLe a c = true := by
  intro a b c hab hbc
  simp only [histLe, decide_eq_true_eq] at hab hbc ⊢
  omega

theorem histLe_total : ∀ a b : HistRec, (histLe a b || histLe b a) = true := by
  intro a b
  simp only [histLe, Bool.or_eq_true, decide_eq_true_eq]
  omega

/-- C7: inserting a history record for a symbol whose persisted history
is already at the cap `DB_MAX_ITEMS` = 60 leaves, after the
insert-then-delete prune, exactly 60 records for that symbol, and they
are the 60 newest by timestamp: every record of the symbol that was
deleted has a timestamp at most that of every kept record. -/
theorem history_prune_cap (db : List HistRec) (u : PriceUpdate)
    (hnd : (db.map (fun r => r.id)).Nodup)
    (hcap : (db.filter (fun r => r.symbol == u.symbol)).length = DB_MAX_ITEMS) :
    ((persistUpdateDb db u).filter (fun r => r.symbol == u.symbol)).length
        = DB_MAX_ITEMS ∧
    (∀ k ∈ persistUpdateDb db u, k.symbol = u.symbol →
      ∀ d ∈ insertHistory db u.symbol u.price u.timestamp, d.symbol = u.symbol →
        d ∉ persistUpdateDb db u → d.timestamp ≤ k.timestamp) := by
  have hψ : persistUpdateDb db u
      = sqlPruneRows (fun r => r.id) histLe DB_MAX_ITEMS (fun r => r.symbol == u.symbol)
          (insertHistory db u.symbol u.price u.timestamp) := rfl
  have hndI : ((insertHistory db u.symbol u.price u.timestamp).map (fun r => r.id)).Nodup := by
    unfold insertHistory
    rw [List.map_append, List.nodup_append]
    refine ⟨hnd, by simp, ?_⟩
    intro a ha hb
    simp only [List.map_cons, List.map_nil, List.mem_singleton] at hb
    rw [hb] at ha
    exact nextId_not_mem _ ha
  have hsubI : ((insertHistory db u.symbol u.price u.timestamp).filter
        (fun r => r.symbol == u.symbol)).Sublist
      (insertHistory db u.symbol u.price u.timestamp) :=
    List.filter_sublist _
  have hndF : (((insertHistory db u.symbol u.price u.timestamp).filter
      (fun r => r.symbol == u.symbol)).map (fun r => r.id)).Nodup :=
    List.Nodup.sublist (hsubI.map (fun r => r.id)) hndI
  have hlenF : ((insertHistory db u.symbol u.price u.timestamp).filter
      (fun r => r.symbol == u.symbol)).length = DB_MAX_ITEMS + 1 := by
    unfold insertHistory
    rw [List.filter_append]
    simp [hcap]
  constructor
  · rw [hψ, (sqlPruneRows_filter_perm _ _ _ _ _ hndF).length_eq, List.length_take,
      (List.mergeSort_perm _ _).length_eq, hlenF]
    exact min_eq_left (Nat.le_succ _)
  · intro k hk hkm d hd hdm hdnot
    have hle := sqlPruneRows_dropped (fun r => r.id) histLe histLe_trans histLe_total
      DB_MAX_ITEMS (fun r => r.symbol == u.symbol)
      (insertHistory db u.symbol u.price u.timestamp) hndF
      k (hψ ▸ hk) (by simp [hkm]) d hd (by simp [hdm]) (hψ ▸ hdnot)
    simpa [histLe] using hle

/-- A history table with exactly 60 rows for AAPL, used as the concrete
witness input for the pruning theorem. -/
def histWitnessDb : List HistRec :=
  (List.range 60).map (fun i => ⟨i + 1, "AAPL", 1, (i : ℤ)⟩)

/-- Witness for C7: inserting a 61st AAPL record into a table at the cap
leaves exactly 60 AAPL records. -/
theorem history_prune_cap_witness :
    ((persistUpdateDb histWitnessDb ⟨"k", "AAPL", 2, 100⟩).filter
        (fun r => r.symbol == (⟨"k", "AAPL", 2, 100⟩ : PriceUpdate).symbol)).length
      = DB_MAX_ITEMS :=
  (history_prune_cap histWitnessDb ⟨"k", "AAPL", 2, 100⟩ (by decide) (by decide)).1

/-! ## C10: alert cap pruning on save -/

theorem alertKeepLe_trans : ∀ a b c : AlertRow,
    alertKeepLe a b = true → alertKeepLe b c = true → alertKeepLe a c = true := by
  intro a b c hab hbc
  cases ha : a.triggered <;> cases hb : b.triggered <;> cases hc : c.triggered <;>
    simp [alertKeepLe, ha, hb, hc] at hab hbc ⊢ <;> omega

theorem alertKeepLe_total : ∀ a b : AlertRow, (alertKeepLe a b || alertKeepLe b a) = true := by
  intro a b
  cases ha : a.triggered <;> cases hb : b.triggered <;>
    simp [alertKeepLe, ha, hb] <;> omega

/-- C10: saving a new alert rule for a symbol already holding
`ALERT_MAX_ITEMS` = 20 stored rules prunes the symbol back to exactly 20
rows, and the deletion prefers already-triggered rules over un-triggered
ones and, within the same triggered status, lower-id (older) rules:
every deleted row either is triggered while the kept row is not, or
shares the kept row's triggered status and has a smaller-or-equal id. -/
theorem alert_save_prune (db : List AlertRow) (s : String) (dir : Direction) (p : ℚ)
    (hp : 0 < p)
    (hnd : (db.map (fun r => r.id)).Nodup)
    (hcap : (db.filter (fun r => r.symbol == s)).length = ALERT_MAX_ITEMS) :
    ((handleSaveAlert db s dir (some p)).filter (fun r => r.symbol == s)).length
        = ALERT_MAX_ITEMS ∧
    (∀ k ∈ handleSaveAlert db s dir (some p), k.symbol = s →
      ∀ d ∈ insertAlert db s dir p, d.symbol = s →
        d ∉ handleSaveAlert db s dir (some p) →
        ((k.triggered = false ∧ d.triggered = true) ∨
         (k.triggered = d.triggered ∧ d.id ≤ k.id))) := by
  have hψ : handleSaveAlert db s dir (some p)
      = sqlPruneRows (fun r => r.id) alertKeepLe ALERT_MAX_ITEMS
          (fun r => r.symbol == s) (insertAlert db s dir p) := by
    show (if p ≤ 0 then db else pruneAlerts (insertAlert db s dir p) s) = _
    rw [if_neg (not_le.mpr hp)]
    rfl
  have hndI : ((insertAlert db s dir p).map (fun r => r.id)).Nodup := by
    unfold insertAlert
    rw [List.map_append, List.nodup_append]
    refine ⟨hnd, by simp, ?_⟩
    intro a ha hb
    simp only [List.map_cons, List.map_nil, List.mem_singleton] at hb
    rw [hb] at ha
    exact nextId_not_mem _ ha
  have hsubI : ((insertAlert db s dir p).filter (fun r => r.symbol == s)).Sublist
      (insertAlert db s dir p) :=
    List.filter_sublist _
  have hndF : (((insertAlert db s dir p).filter
      (fun r => r.symbol == s)).map (fun r => r.id)).Nodup :=
    List.Nodup.sublist (hsubI.map (fun r => r.id)) hndI
  have hlenF : ((insertAlert db s dir p).filter (fun r => r.symbol == s)).length
      = ALERT_MAX_ITEMS + 1 := by
    unfold insertAlert
    rw [List.filter_append]
    simp [hcap]
  constructor
  · rw [hψ, (sqlPruneRows_filter_perm _ _ _ _ _ hndF).length_eq, List.length_take,
      (List.mergeSort_perm _ _).length_eq, hlenF]
    exact min_eq_left (Nat.le_succ _)
  · intro k hk hkm d hd hdm hdnot
    have hle := sqlPruneRows_dropped (fun r => r.id) alertKeepLe alertKeepLe_trans
      alertKeepLe_total ALERT_MAX_ITEMS (fun r => r.symbol == s)
      (insertAlert db s dir p) hndF
      k (hψ ▸ hk) (by simp [hkm]) d hd (by simp [hdm]) (hψ ▸ hdnot)
    cases hkt : k.triggered <;> cases hdt : d.triggered
    · simp only [alertKeepLe, hkt, hdt, Bool.not_false, Bool.and_false, Bool.false_or,
        beq_self_eq_true, Bool.true_and, decide_eq_true_eq] at hle
      exact Or.inr ⟨rfl, hle⟩
    · exact Or.inl ⟨rfl, rfl⟩
    · simp [alertKeepLe, hkt, hdt] at hle
    · simp only [alertKeepLe, hkt, hdt, Bool.not_true, Bool.false_and, Bool.false_or,
        beq_self_eq_true, Bool.true_and, decide_eq_true_eq] at hle
      exact Or.inr ⟨rfl, hle⟩

/-- An alert table with exactly 20 un-triggered AAPL rules, used as the
concrete witness input for the save-prune theorem. -/
def alertWitnessDb : List AlertRow :=
  (List.range 20).map (fun i => ⟨i + 1, "AAPL", .above, some 1, false⟩)

/-- Witness for C10: saving a 21st AAPL rule into a table at the cap
leaves exactly 20 AAPL rules. -/
theorem alert_save_prune_witness :
    ((handleSaveAlert alertWitnessDb "AAPL" .above (some 50)).filter
        (fun r => r.symbol == "AAPL")).length = ALERT_MAX_ITEMS :=
  (alert_save_prune alertWitnessDb "AAPL" .above 50 (by norm_num) (by decide) (by decide)).1

/-! ## C5: async completions racing a symbol switch -/

theorem firedRows_symbol (u : PriceUpdate) (db : List AlertRow) :
    ∀ r ∈ firedRows u db, r.symbol = u.symbol := by
  intro r hr
  have h1 : r ∈ unfiredFor u db := List.mem_of_mem_filter hr
  have h2 := List.of_mem_filter h1
  simp only [Bool.and_eq_true, beq_iff_eq] at h2
  exact h2.1

theorem loadAlertsRows_symbol (db : List AlertRow) (s : String) :
    ∀ r ∈ loadAlertsRows db s, r.symbol = s := by
  intro r hr
  have h1 : r ∈ (db.filter (fun x => x.symbol == s)).mergeSort alertLoadLe :=
    (List.take_sublist _ _).subset hr
  have h2 : r ∈ db.filter (fun x => x.symbol == s) :=
    (List.mergeSort_perm _ _).mem_iff.mp h1
  have h3 := List.of_mem_filter h2
  simpa using h3

theorem persistUpdateDb_new_rows (db : List HistRec) (u : PriceUpdate) :
    ∀ r ∈ persistUpdateDb db u, r ∈ db ∨ r.symbol = u.symbol := by
  intro r hr
  have h1 : r ∈ insertHistory db u.symbol u.price u.timestamp :=
    List.mem_of_mem_filter hr
  unfold insertHistory at h1
  rcases List.mem_append.mp h1 with h | h
  · exact Or.inl h
  · rcases List.mem_singleton.mp h with rfl
    exact Or.inr rfl

/-- The concrete stale-callback scenario: the session has already moved
to TSLA (its visible alert list is empty), one un-fired AAPL alert is
stored, and a late completion for an AAPL tick at price 150 arrives. -/
def staleTick : PriceUpdate := ⟨"k", "AAPL", 150, 1000⟩

/-- The session state at the time the stale completion runs. -/
def staleState : AppState :=
  ⟨"TSLA", [], [], [⟨1, "AAPL", .above, some 100, false⟩], []⟩

/-- C5 counterexample: a `persistAndCheckUpdate` completion for an AAPL
tick, arriving after the session has switched to TSLA, overwrites the
session-visible alert list (the new symbol's state) with AAPL alert
rows — `checkAlertsForUpdate` ends with `loadAlerts(update.symbol)` and
checks no per-session active flag, so the claim as stated is false. -/
theorem stale_callback_overwrites_alerts :
    staleState.activeSymbol ≠ staleTick.symbol ∧
    (persistAndCheckComplete staleTick staleState).alerts ≠ staleState.alerts := by
  constructor
  · decide
  · have hfired : firedRows staleTick [⟨1, "AAPL", .above, some 100, false⟩]
        = [⟨1, "AAPL", .above, some 100, false⟩] := by
      norm_num [firedRows, unfiredFor, alertMatches, staleTick]
    have halerts : (persistAndCheckComplete staleTick staleState).alerts
        = loadAlertsRows (markFired [⟨1, "AAPL", .above, some 100, false⟩] [1]) "AAPL" := by
      show (checkAlertsComplete staleTick (persistComplete staleTick staleState)).alerts = _
      unfold checkAlertsComplete
      rw [show (persistComplete staleTick staleState).dbAlerts
          = [⟨1, "AAPL", .above, some 100, false⟩] from rfl, hfired]
      rw [if_neg (by simp)]
      rfl
    have hmark : markFired [⟨1, "AAPL", .above, some 100, false⟩] [1]
        = [⟨1, "AAPL", .above, some 100, true⟩] := by
      simp [markFired]
    have hlen : (loadAlertsRows [⟨1, "AAPL", .above, some 100, true⟩] "AAPL").length = 1 := by
      unfold loadAlertsRows
      rw [List.length_take, (List.mergeSort_perm _ _).length_eq]
      norm_num [ALERT_MAX_ITEMS]
    intro heq
    rw [halerts, hmark] at heq
    have hzero := congrArg List.length heq
    rw [hlen] at hzero
    simp [staleState] at hzero

/-- C5 amended: a persistence or alert-evaluation completion for a tick
of a now-stale symbol never mutates the in-memory tick buffer or the
active-symbol value, fires only alerts of the stale symbol (never the new
one), adds history rows only for the stale symbol — but when at least one
alert fires it does overwrite the session-visible alert list, installing
the stale symbol's alert rows in place of the new symbol's. -/
theorem stale_callback_amended (u : PriceUpdate) (st : AppState)
    (h : st.activeSymbol ≠ u.symbol) :
    (persistAndCheckComplete u st).updates = st.updates ∧
    (persistAndCheckComplete u st).activeSymbol = st.activeSymbol ∧
    (∀ r ∈ firedRows u st.dbAlerts, r.symbol = u.symbol ∧ r.symbol ≠ st.activeSymbol) ∧
    (∀ r ∈ (persistAndCheckComplete u st).dbHistory,
        r ∈ st.dbHistory ∨ r.symbol = u.symbol) ∧
    ((persistAndCheckComplete u st).alerts = st.alerts ∨
      ∀ r ∈ (persistAndCheckComplete u st).alerts,
        r.symbol = u.symbol ∧ r.symbol ≠ st.activeSymbol) := by
  refine ⟨?_, ?_, ?_, ?_, ?_⟩
  · show (checkAlertsComplete u (persistComplete u st)).updates = st.updates
    unfold checkAlertsComplete
    split <;> rfl
  · show (checkAlertsComplete u (persistComplete u st)).activeSymbol = st.activeSymbol
    unfold checkAlertsComplete
    split <;> rfl
  · intro r hr
    have hs := firedRows_symbol u st.dbAlerts r hr
    exact ⟨hs, fun he => h (by rw [← he]; exact hs)⟩
  · have hh : (persistAndCheckComplete u st).dbHistory = persistUpdateDb st.dbHistory u := by
      show (checkAlertsComplete u (persistComplete u st)).dbHistory = _
      unfold checkAlertsComplete
      split <;> rfl
    rw [hh]
    exact persistUpdateDb_new_rows st.dbHistory u
  · by_cases hf : firedRows u st.dbAlerts = []
    · left
      show (checkAlertsComplete u (persistComplete u st)).alerts = st.alerts
      unfold checkAlertsComplete
      rw [if_pos (show firedRows u (persistComplete u st).dbAlerts = [] from hf)]
      rfl
    · right
      have ha : (persistAndCheckComplete u st).alerts
          = loadAlertsRows (markFired st.dbAlerts
              ((firedRows u st.dbAlerts).map (fun r => r.id))) u.symbol := by
        show (checkAlertsComplete u (persistComplete u st)).alerts = _
        unfold checkAlertsComplete
        rw [if_neg (show ¬ firedRows u (persistComplete u st).dbAlerts = [] from hf)]
        rfl
      intro r hr
      rw [ha] at hr
      have hs := loadAlertsRows_symbol _ u.symbol r hr
      exact ⟨hs, fun he => h (by rw [← he]; exact hs)⟩

/-- Witness for the amended C5 theorem at the counterexample's inputs. -/
theorem stale_callback_amended_witness :
    (persistAndCheckComplete ⟨"k", "AAPL", 150, 1000⟩
        ⟨"TSLA", [], [], [⟨1, "AAPL", .above, some 100, false⟩], []⟩).updates =
      (⟨"TSLA", [], [], [⟨1, "AAPL", .above, some 100, false⟩], []⟩ : AppState).updates :=
  (stale_callback_amended ⟨"k", "AAPL", 150, 1000⟩
    ⟨"TSLA", [], [], [⟨1, "AAPL", .above, some 100, false⟩], []⟩ (by decide)).1

end RnDemo
